import Mathlib

/-!
# Verification of the tk-premiere adapter layer

Shallow embedding of the core logic of the `tk_premiere` Python package
(`premiere.py`, `session_info.py`): the folder ("bin") tree traversal, the
bin lookup / ensure / path-creation operations, the metadata read/write
string patching, the metadata-schema type mapping, clip creation, and the
session snapshot export.  Host-owned objects (Premiere `ProjectItem`s,
sequences, tracks) are modelled as inductive trees / structures; host calls
whose semantics are host-owned are modelled explicitly where a claim needs
them, with a note at the definition.
-/

set_option maxRecDepth 4000

namespace TkPremiere

/-- Mapping for Adobe ProjectItem types (`ItemType` IntEnum in `premiere.py`):
CLIP = 1, BIN = 2, ROOT = 3, FILE = 4. -/
inductive ItemType where
  | CLIP
  | BIN
  | ROOT
  | FILE
deriving DecidableEq, Repr

/-- Numeric value carried by the Python `IntEnum`. -/
def ItemType.code : ItemType → Nat
  | .CLIP => 1
  | .BIN => 2
  | .ROOT => 3
  | .FILE => 4

/-- A host-side Premiere `ProjectItem`: a type, a name, the `isSequence()`
flag and a children collection indexed by `numItems`.  The host sometimes
reports `None` entries inside the reported child count, hence
`List (Option ProjectItem)`. -/
inductive ProjectItem where
  | mk (itemType : ItemType) (name : String) (isSeq : Bool)
      (children : List (Option ProjectItem))

namespace ProjectItem

def itemType : ProjectItem → ItemType
  | .mk t _ _ _ => t

def name : ProjectItem → String
  | .mk _ n _ _ => n

def isSeq : ProjectItem → Bool
  | .mk _ _ s _ => s

def children : ProjectItem → List (Option ProjectItem)
  | .mk _ _ _ c => c

end ProjectItem

/-- The children pushed by one loop turn of `PremiereProject.bins`
(`premiere.py` lines 207-210): the non-null children whose `type` is
`ItemType.BIN`, in index order. -/
def binChildren (b : ProjectItem) : List ProjectItem :=
  b.children.filterMap (fun c =>
    match c with
    | some child => if child.itemType = ItemType.BIN then some child else none
    | none => none)

theorem mem_binChildren {b : ProjectItem} {c : ProjectItem}
    (h : c ∈ binChildren b) : some c ∈ b.children ∧ c.itemType = ItemType.BIN := by
  unfold binChildren at h
  rcases List.mem_filterMap.mp h with ⟨o, ho, heq⟩
  cases o with
  | none => simp at heq
  | some child =>
    by_cases ht : child.itemType = ItemType.BIN
    · simp [ht] at heq
      subst heq
      exact ⟨ho, ht⟩
    · simp [ht] at heq

theorem sizeOf_mem_children {b : ProjectItem} {c : ProjectItem}
    (h : some c ∈ b.children) : sizeOf c < sizeOf b := by
  have h1 : sizeOf (some c) < sizeOf b.children := List.sizeOf_lt_of_mem h
  cases b with
  | mk t n s ch =>
    simp [ProjectItem.children] at h1
    simp only [ProjectItem.mk.sizeOf_spec]
    have : sizeOf (some c) = 1 + sizeOf c := by simp
    omega

theorem sizeOf_mem_binChildren {b : ProjectItem} {c : ProjectItem}
    (h : c ∈ binChildren b) : sizeOf c < sizeOf b :=
  sizeOf_mem_children (mem_binChildren h).1

/-- Sum of sizes of the BIN children is smaller than the size of the parent
(used for termination of the traversal). -/
theorem binChildren_sizes_lt (b : ProjectItem) :
    ((binChildren b).map (fun t => sizeOf t)).sum < sizeOf b := by
  cases b with
  | mk t n s ch =>
    have key : ∀ (l : List (Option ProjectItem)),
        ((l.filterMap (fun c =>
          match c with
          | some child => if child.itemType = ItemType.BIN then some child else none
          | none => none)).map (fun t => sizeOf t)).sum < sizeOf l := by
      intro l
      induction l with
      | nil => simp
      | cons o rest ih =>
        cases o with
        | none =>
          simp only [List.filterMap_cons]
          simp only [List.cons.sizeOf_spec]
          omega
        | some child =>
          by_cases ht : child.itemType = ItemType.BIN
          · simp only [List.filterMap_cons, ht, if_pos, List.map_cons, List.sum_cons,
              List.cons.sizeOf_spec, Option.some.sizeOf_spec]
            omega
          · simp only [List.filterMap_cons, ht, if_neg, List.cons.sizeOf_spec,
              Option.some.sizeOf_spec, not_false_iff]
            omega
    have h2 := key ch
    simp only [binChildren, ProjectItem.children, ProjectItem.mk.sizeOf_spec]
    omega

/-- The explicit-stack loop of `PremiereProject.bins` (`premiere.py` lines
199-211).  The Python keeps a work list `bins`, pops from the end, pushes
the non-null BIN children of the popped item in index order, and yields the
popped item.  Here the stack is a Lean list whose head is the Python list's
end, so one loop turn pops the head and pushes the reversed BIN-children
list on the front. -/
def binsAux (stack : List ProjectItem) : List ProjectItem :=
  match stack with
  | [] => []
  | b :: rest => b :: binsAux ((binChildren b).reverse ++ rest)
termination_by (stack.map (fun t => sizeOf t)).sum
decreasing_by
  simp only [List.map_append, List.sum_append, List.map_reverse, List.sum_reverse,
    List.map_cons, List.sum_cons]
  have := binChildren_sizes_lt b
  omega

/-- `PremiereProject.bins`: iterate over all bins of the project, starting
from the root item (`premiere.py` line 200: the top project item is also a
bin). -/
def PremiereProject.bins (rootItem : ProjectItem) : List ProjectItem :=
  binsAux [rootItem]

/-- All folders of the tree rooted at `b`: the root folder itself plus,
recursively, the folders reachable through non-null BIN children.  This is
the specification-side notion of "the folders of the tree". -/
def allFolders (b : ProjectItem) : List ProjectItem :=
  b :: (binChildren b).attach.flatMap (fun c => allFolders c.1)
termination_by sizeOf b
decreasing_by
  exact sizeOf_mem_binChildren c.2

/-- The total folder count of the tree rooted at `b`: the root plus the
counts of the subtrees reachable through non-null BIN children. -/
def folderCount (b : ProjectItem) : Nat :=
  1 + ((binChildren b).attach.map (fun c => folderCount c.1)).sum
termination_by sizeOf b
decreasing_by
  exact sizeOf_mem_binChildren c.2

theorem allFolders_length (b : ProjectItem) :
    (allFolders b).length = folderCount b := by
  have ih : ∀ c : {x // x ∈ binChildren b}, (allFolders c.1).length = folderCount c.1 :=
    fun c => allFolders_length c.1
  rw [allFolders, folderCount]
  simp only [List.length_cons, List.length_flatMap]
  have hmap : List.map (List.length ∘ fun c => allFolders c.1) (binChildren b).attach
      = List.map (fun c => folderCount c.1) (binChildren b).attach := by
    apply List.map_congr_left
    intro c _
    exact ih c
  rw [hmap]
  omega
termination_by sizeOf b
decreasing_by
  exact sizeOf_mem_binChildren c.2

theorem allFolders_eq (b : ProjectItem) :
    allFolders b = b :: (binChildren b).flatMap allFolders := by
  rw [allFolders]
  congr 1
  conv_rhs => rw [← List.attach_map_subtype_val (binChildren b)]
  rw [List.flatMap_map]

theorem binsAux_perm (stack : List ProjectItem) :
    (binsAux stack).Perm (stack.flatMap allFolders) := by
  match stack with
  | [] => simp only [binsAux]; simp
  | b :: rest =>
    have ih := binsAux_perm ((binChildren b).reverse ++ rest)
    simp only [binsAux]
    have h1 : (b :: binsAux ((binChildren b).reverse ++ rest)).Perm
        (b :: ((binChildren b).reverse ++ rest).flatMap allFolders) :=
      ih.cons b
    have h2 : (((binChildren b).reverse ++ rest).flatMap allFolders)
        = ((binChildren b).reverse.flatMap allFolders) ++ (rest.flatMap allFolders) := by
      rw [List.flatMap_append]
    have h3 : ((binChildren b).reverse.flatMap allFolders).Perm
        ((binChildren b).flatMap allFolders) :=
      (List.reverse_perm (binChildren b)).flatMap_right _
    have h4 : (b :: (((binChildren b).reverse.flatMap allFolders) ++ (rest.flatMap allFolders))).Perm
        (b :: (((binChildren b).flatMap allFolders) ++ (rest.flatMap allFolders))) :=
      (h3.append_right _).cons b
    have h5 : (b :: rest).flatMap allFolders
        = b :: (((binChildren b).flatMap allFolders) ++ (rest.flatMap allFolders)) := by
      rw [List.flatMap_cons, allFolders_eq, List.cons_append]
    rw [h5]
    exact (h1.trans (by rw [h2])).trans h4
termination_by (stack.map (fun t => sizeOf t)).sum
decreasing_by
  simp only [List.map_append, List.sum_append, List.map_reverse, List.sum_reverse,
    List.map_cons, List.sum_cons]
  have := binChildren_sizes_lt b
  omega

/-- C3: for every finite folder tree rooted at the project's root folder,
the `PremiereProject.bins` traversal yields every folder of the tree exactly
once (as a permutation of the tree's folder list), so the number of yielded
folders equals the total folder count of the tree — even when the host
reports null child entries within the reported child count (null children
are representable and are skipped by the traversal). -/
theorem bins_yields_every_folder_exactly_once (rootItem : ProjectItem) :
    (PremiereProject.bins rootItem).Perm (allFolders rootItem) ∧
    (PremiereProject.bins rootItem).length = folderCount rootItem := by
  have hp : (PremiereProject.bins rootItem).Perm (allFolders rootItem) := by
    have h := binsAux_perm [rootItem]
    rw [PremiereProject.bins]
    simpa using h
  exact ⟨hp, by rw [hp.length_eq, allFolders_length]⟩

/-- C10: for every project, the first folder yielded by the `bins` traversal
is the project's root folder. -/
theorem bins_first_yielded_is_root (rootItem : ProjectItem) :
    (PremiereProject.bins rootItem).head? = some rootItem := by
  rw [PremiereProject.bins]
  simp only [binsAux]
  rfl

/-- `PremiereBin.clips` (`premiere.py` lines 513-528): iterate over the
children by index and yield the children whose `type` is CLIP and which are
not sequences.  The loop reads `child.type` with no null guard, so a null
child entry raises (an `AttributeError`) instead of being skipped; the
raised exception is modelled by returning `none`. -/
def PremiereBin.clips (b : ProjectItem) : Option (List ProjectItem) :=
  go b.children
where
  go : List (Option ProjectItem) → Option (List ProjectItem)
    | [] => some []
    | none :: _ => none
    | some child :: rest =>
      (go rest).map (fun l =>
        if child.itemType = ItemType.CLIP ∧ ¬child.isSeq then child :: l else l)

/-- The clip list `PremiereBin.clips` produces when no child is null: the
non-null children of type CLIP which are not sequences, in index order. -/
def expectedClips (b : ProjectItem) : List ProjectItem :=
  (b.children.filterMap id).filter
    (fun c => decide (c.itemType = ItemType.CLIP ∧ ¬c.isSeq))

/-- C9: clip enumeration of a folder is total exactly when every child at an
index below the reported child count is non-null (it reads each child's type
without a null guard), and under that precondition it yields, in index
order, exactly the children whose type is CLIP and which are not
sequences. -/
theorem clips_go_all_some (l : List (Option ProjectItem)) (h : ∀ c ∈ l, c ≠ none) :
    PremiereBin.clips.go l
      = some ((l.filterMap id).filter
          (fun c => decide (c.itemType = ItemType.CLIP ∧ ¬c.isSeq))) := by
  induction l with
  | nil => rfl
  | cons o rest ih =>
    cases o with
    | none => exact absurd rfl (h none (by simp))
    | some child =>
      have hrest := ih (fun c hc => h c (List.mem_cons_of_mem _ hc))
      rw [PremiereBin.clips.go, hrest]
      simp only [Option.map_some, List.filterMap_cons, id, List.filter_cons]
      by_cases hc : child.itemType = ItemType.CLIP ∧ ¬child.isSeq
      · simp [hc]
      · simp [hc]

theorem clips_go_has_none (l : List (Option ProjectItem)) (h : none ∈ l) :
    PremiereBin.clips.go l = none := by
  induction l with
  | nil => simp at h
  | cons o rest ih =>
    cases o with
    | none => rfl
    | some child =>
      have : none ∈ rest := by
        rcases List.mem_cons.mp h with h1 | h1
        · exact absurd h1.symm (by simp)
        · exact h1
      rw [PremiereBin.clips.go, ih this]
      rfl

theorem clips_total_iff_no_null_children (b : ProjectItem) :
    ((∀ c ∈ b.children, c ≠ none) →
      PremiereBin.clips b = some (expectedClips b)) ∧
    ((∃ c ∈ b.children, c = none) → PremiereBin.clips b = none) := by
  constructor
  · intro h
    rw [PremiereBin.clips, expectedClips]
    exact clips_go_all_some b.children h
  · intro h
    rw [PremiereBin.clips]
    rcases h with ⟨c, hc, hcn⟩
    exact clips_go_has_none b.children (hcn ▸ hc)

/-- A plain clip child. -/
def wClip : ProjectItem := .mk .CLIP "clip1" false []

/-- A sequence: the host classifies sequences as clips, `isSequence()` true. -/
def wSeqClip : ProjectItem := .mk .CLIP "seq1" true []

/-- A sub-bin child. -/
def wSubBin : ProjectItem := .mk .BIN "sub" false []

/-- A bin whose reported children are all non-null. -/
def wBinAllGood : ProjectItem := .mk .BIN "bin" false [some wClip, some wSeqClip, some wSubBin]

/-- A bin with a null entry inside the reported child count. -/
def wBinWithNull : ProjectItem := .mk .BIN "bin2" false [some wClip, none]

theorem clips_total_iff_no_null_children_witness :
    PremiereBin.clips wBinAllGood = some [wClip] ∧
    PremiereBin.clips wBinWithNull = none := by
  constructor
  · have h := (clips_total_iff_no_null_children wBinAllGood).1
      (by intro c hc; simp [wBinAllGood, ProjectItem.children] at hc
          rcases hc with h1 | h1 | h1 <;> simp [h1])
    rw [h]
    rfl
  · exact (clips_total_iff_no_null_children wBinWithNull).2
      ⟨none, by simp [wBinWithNull, ProjectItem.children], rfl⟩

/-- Error taxonomy of the adapter layer (spec §7): the source raises
`ValueError` with distinct messages for malformed arguments, failed
creation, and failed retrieval. -/
inductive PremError where
  | invalidArgument (msg : String)
  | creationFailed (msg : String)
  | retrievalFailed (msg : String)
deriving DecidableEq, Repr

/-- Python's `path.split("/")`: cut the character list at every `'/'`,
keeping empty segments (`"".split("/") == [""]`, `"a//b".split("/") ==
["a", "", "b"]`). -/
def splitSlash : List Char → List (List Char)
  | [] => [[]]
  | c :: rest =>
    if c = '/' then [] :: splitSlash rest
    else match splitSlash rest with
      | [] => [[c]]
      | g :: gs => (c :: g) :: gs

/-- The scan of `PremiereBin.get_bin_by_name` (`premiere.py` lines 530-541):
walk the children by index; the first non-null child of type BIN whose name
matches is returned, together with its index (the index is kept so that the
host-side mutation of `ensure_bin` can be threaded functionally). -/
def findBinWithIdx (l : List (Option ProjectItem)) (name : String) :
    Option (Nat × ProjectItem) :=
  match l with
  | [] => none
  | c :: rest =>
    match c with
    | some child =>
      if child.itemType = ItemType.BIN ∧ child.name = name then some (0, child)
      else (findBinWithIdx rest name).map (fun p => (p.1 + 1, p.2))
    | none => (findBinWithIdx rest name).map (fun p => (p.1 + 1, p.2))

/-- `PremiereBin.get_bin_by_name`: the bin with the given name in this bin,
if any (null children are skipped by the loop's guard). -/
def PremiereBin.get_bin_by_name (b : ProjectItem) (name : String) :
    Option ProjectItem :=
  (findBinWithIdx b.children name).map (fun p => p.2)

def setChildAt (b : ProjectItem) (i : Nat) (c : ProjectItem) : ProjectItem :=
  .mk b.itemType b.name b.isSeq (b.children.set i (some c))

/-- Modelled from the spec: the host `createBin` call (`premiere.py` line
550 forwards to the host application, whose code is not in this
repository).  Per spec §4.2 "Ensure: lookup; if absent, create (host
create-folder call) and return the new folder": modelled as appending a new
empty BIN child to the parent. -/
def createBinChild (b : ProjectItem) (name : String) : ProjectItem × ProjectItem :=
  let nb := ProjectItem.mk ItemType.BIN name false []
  (.mk b.itemType b.name b.isSeq (b.children ++ [some nb]), nb)

/-- `PremiereBin.ensure_bin` folded over a list of path segments
(`premiere.py` lines 552-562 and the loop of `ensure_bins_for_path`, lines
305-307), with the host-side mutation threaded explicitly: returns the
updated subtree together with the deepest ensured bin's subtree. -/
def ensurePath (b : ProjectItem) : List String → ProjectItem × ProjectItem
  | [] => (b, b)
  | p :: rest =>
    match findBinWithIdx b.children p with
    | some ic =>
      let r := ensurePath ic.2 rest
      (setChildAt b ic.1 r.1, r.2)
    | none =>
      let r := ensurePath (createBinChild b p).2 rest
      (.mk b.itemType b.name b.isSeq (b.children ++ [some r.1]), r.2)

/-- `PremiereProject.ensure_bins_for_path` (`premiere.py` lines 294-308):
split the path on `/`, drop empty segments, raise `ValueError` for an empty
result, then fold `ensure_bin` over the segments starting from the project
root. -/
def PremiereProject.ensure_bins_for_path (rootItem : ProjectItem) (path : String) :
    Except PremError (ProjectItem × ProjectItem) :=
  let parts := ((splitSlash path.data).filter (fun p => p ≠ [])).map String.mk
  if parts = [] then .error (.invalidArgument ("Invalid import bin path " ++ path))
  else .ok (ensurePath rootItem parts)

/-- C6: starting from the same project state,
`ensure_bins_for_path "/a//b/"` and `ensure_bins_for_path "a/b"` produce
the same result (empty segments from leading, trailing and doubled slashes
are discarded before folding ensure over the segments), and a path whose
segments are all empty raises an invalid-argument error. -/
theorem ensure_bins_for_path_normalizes (rootItem : ProjectItem) :
    PremiereProject.ensure_bins_for_path rootItem "/a//b/"
      = PremiereProject.ensure_bins_for_path rootItem "a/b" ∧
    ∀ (root2 : ProjectItem) (path : String),
      ((splitSlash path.data).filter (fun p => p ≠ [])) = [] →
      PremiereProject.ensure_bins_for_path root2 path
        = .error (.invalidArgument ("Invalid import bin path " ++ path)) := by
  constructor
  · show PremiereProject.ensure_bins_for_path rootItem "/a//b/"
      = PremiereProject.ensure_bins_for_path rootItem "a/b"
    have h1 : (((splitSlash "/a//b/".data).filter (fun p => p ≠ [])).map String.mk)
        = ["a", "b"] := by decide
    have h2 : (((splitSlash "a/b".data).filter (fun p => p ≠ [])).map String.mk)
        = ["a", "b"] := by decide
    rw [PremiereProject.ensure_bins_for_path, PremiereProject.ensure_bins_for_path]
    rw [h1, h2]
    simp
  · intro root2 path hp
    rw [PremiereProject.ensure_bins_for_path]
    rw [hp]
    rfl

theorem ensure_bins_for_path_normalizes_witness :
    PremiereProject.ensure_bins_for_path wBinAllGood "//"
      = .error (.invalidArgument "Invalid import bin path //") :=
  (ensure_bins_for_path_normalizes wBinAllGood).2 wBinAllGood "//" (by decide)

/-- `PremiereBin.create_clip_from_media` (`premiere.py` lines 564-589).
The host `importFiles` call does not reliably report success, so the source
counts the children before the call and compares with the count after; the
host-side effect of the import is passed explicitly as the children list
observed after the call.  If the count is unchanged a creation error is
raised; otherwise the last child by index is assumed to be the new clip and
must be non-null of type CLIP, else a retrieval error is raised. -/
def PremiereBin.create_clip_from_media
    (childrenBefore childrenAfter : List (Option ProjectItem))
    (mediaPath : String) : Except PremError ProjectItem :=
  let oldCount := childrenBefore.length
  if oldCount = childrenAfter.length then
    .error (.creationFailed ("Unable to create a clip for " ++ mediaPath))
  else
    match (childrenAfter.getD (childrenAfter.length - 1) none) with
    | none => .error (.retrievalFailed ("Unable to retrieve the created clip for " ++ mediaPath))
    | some last =>
      if last.itemType ≠ ItemType.CLIP then
        .error (.retrievalFailed ("Unable to retrieve the created clip for " ++ mediaPath))
      else .ok last

/-- C7: for every folder and media path, if the folder's reported child
count after the host import call equals the count taken before the call,
`create_clip_from_media` raises an operation-failed (creation) error rather
than returning a clip. -/
theorem create_clip_unchanged_count_fails
    (childrenBefore childrenAfter : List (Option ProjectItem)) (mediaPath : String)
    (h : childrenBefore.length = childrenAfter.length) :
    PremiereBin.create_clip_from_media childrenBefore childrenAfter mediaPath
      = .error (.creationFailed ("Unable to create a clip for " ++ mediaPath)) := by
  rw [PremiereBin.create_clip_from_media]
  simp [h]

theorem create_clip_unchanged_count_fails_witness :
    PremiereBin.create_clip_from_media [some wClip] [some wSeqClip] "/tmp/shot.mov"
      = .error (.creationFailed "Unable to create a clip for /tmp/shot.mov") :=
  create_clip_unchanged_count_fails [some wClip] [some wSeqClip] "/tmp/shot.mov" rfl

/-- Python `str.lower()` on the characters of the string (the source calls
`property_type.lower()`); written over the character list so it is
kernel-computable. -/
def pyLower (s : String) : String := String.mk (s.data.map Char.toLower)

/-- The property-type vocabulary of
`PremiereProject.add_meta_data_property` (`premiere.py` lines 323-332): the
dict lookup on the lowercased type name. -/
def propertyValueType (propertyType : String) : Option Nat :=
  match pyLower propertyType with
  | "int" => some 0
  | "integer" => some 0
  | "real" => some 1
  | "float" => some 1
  | "str" => some 2
  | "string" => some 2
  | "bool" => some 3
  | "boolean" => some 3
  | _ => none

/-- `PremiereProject.add_meta_data_property` (`premiere.py` lines 310-340):
map the type name through the vocabulary; raise `ValueError` for an
unsupported type, otherwise forward name, display name and numeric type
code to the host schema call (modelled by returning the forwarded
arguments). -/
def PremiereProject.add_meta_data_property (name displayName propertyType : String) :
    Except PremError (String × String × Nat) :=
  match propertyValueType propertyType with
  | none => .error (.invalidArgument ("Unsupported property type " ++ propertyType))
  | some v => .ok (name, displayName, v)

/-- The eight type names the source's vocabulary accepts. -/
def supportedTypeNames : List String :=
  ["int", "integer", "real", "float", "str", "string", "bool", "boolean"]

theorem propertyValueType_eq_none_of_not_supported (t : String)
    (h : pyLower t ∉ supportedTypeNames) : propertyValueType t = none := by
  rw [propertyValueType]
  simp only [supportedTypeNames, List.mem_cons, not_or, List.not_mem_nil] at h
  obtain ⟨h1, h2, h3, h4, h5, h6, h7, h8, -⟩ := h
  split
  next heq => exact absurd heq h1
  next heq => exact absurd heq h2
  next heq => exact absurd heq h3
  next heq => exact absurd heq h4
  next heq => exact absurd heq h5
  next heq => exact absurd heq h6
  next heq => exact absurd heq h7
  next heq => exact absurd heq h8
  next => rfl

/-- C8: `add_meta_data_property ("x","X","int")` and
`add_meta_data_property ("x","X","INTEGER")` map the type name to the same
internal numeric type code (the vocabulary is matched case-insensitively
through `lower()` with the int/integer, real/float, str/string,
bool/boolean synonyms), and any type name outside the vocabulary raises an
invalid-argument error. -/
theorem add_meta_data_property_type_mapping :
    (PremiereProject.add_meta_data_property "x" "X" "int" = .ok ("x", "X", 0) ∧
     PremiereProject.add_meta_data_property "x" "X" "INTEGER" = .ok ("x", "X", 0)) ∧
    ∀ (n d t : String), pyLower t ∉ supportedTypeNames →
      PremiereProject.add_meta_data_property n d t
        = .error (.invalidArgument ("Unsupported property type " ++ t)) := by
  refine ⟨⟨rfl, rfl⟩, ?_⟩
  intro n d t ht
  rw [PremiereProject.add_meta_data_property,
    propertyValueType_eq_none_of_not_supported t ht]

theorem add_meta_data_property_type_mapping_witness :
    PremiereProject.add_meta_data_property "x" "X" "INTEGER" = .ok ("x", "X", 0) ∧
    PremiereProject.add_meta_data_property "a" "B" "quaternion"
      = .error (.invalidArgument "Unsupported property type quaternion") :=
  ⟨add_meta_data_property_type_mapping.1.2,
   add_meta_data_property_type_mapping.2 "a" "B" "quaternion" (by decide)⟩

/-! ## Session snapshot export (`session_info.py`)

Tick counts and timebases are modelled as rationals; the Python float
(true) division by the timebase is modelled as exact rational division
(spec §4.5 declares a zero timebase undefined behaviour). -/

/-- A transition on a track, with the fields `get_transitions` reads. -/
structure PTransition where
  name : String
  durationTicks : Rat
  startTicks : Rat
  endTicks : Rat
  mediaType : String
  speed : Rat

/-- A clip placed on a track (`TrackItem`), with the fields
`get_clip_items` reads; `mediaPath` is `none` when the underlying project
item has no `getMediaPath` attribute. -/
structure PTrackClip where
  name : String
  durationTicks : Rat
  startTicks : Rat
  endTicks : Rat
  inPointTicks : Rat
  outPointTicks : Rat
  mediaType : String
  mediaPath : Option String
  isSelected : Bool
  speed : Rat
  isAdjustmentLayer : Bool

/-- A track, with the fields `get_tracks` reads. -/
structure PTrack where
  id : Nat
  name : String
  mediaType : String
  clips : List PTrackClip
  transitions : List PTransition
  isMuted : Bool

/-- A sequence, with the fields `get_sequences` reads. -/
structure PSequence where
  sequenceID : String
  name : String
  inPointTicks : Rat
  outPointTicks : Rat
  timebase : Rat
  zeroPoint : Rat
  endValue : Rat
  videoTracks : List PTrack
  audioTracks : List PTrack

/-- A project as seen through the bridge (`app.projects` entries); the
active sequence is modelled as always present — only its name is read, and
only inside the dead loop of `get_sequences`. -/
structure PProject where
  documentID : String
  name : String
  path : String
  sequences : List PSequence
  activeSequence : PSequence

/-- The engine's bridge: `adobe.app.project` (the current project) and
`adobe.app.projects` (all open projects). -/
structure Engine where
  appProject : PProject
  appProjects : List PProject

/-- The dictionary built per transition by `SessionInfo.get_transitions`. -/
structure TransitionEntry where
  name : String
  duration : Rat
  start : Rat
  endValue : Rat
  mediaType : String
  speed : Rat

/-- The dictionary built per track clip by `SessionInfo.get_clip_items`. -/
structure ClipEntry where
  name : String
  duration : Rat
  start : Rat
  endValue : Rat
  inPoint : Rat
  outPoint : Rat
  mediaType : String
  sourcePathClip : Option String
  isSelected : Bool
  speed : Rat
  isAdjustmentLayer : Bool

/-- The dictionary built per track by `SessionInfo.get_tracks`. -/
structure TrackEntry where
  id : Nat
  name : String
  mediaType : String
  clips : List ClipEntry
  transitions : List TransitionEntry
  isMuted : Bool

/-- The dictionary built per sequence by `SessionInfo.get_sequences`. -/
structure SeqEntry where
  sequenceID : String
  name : String
  inPoint : Rat
  outPoint : Rat
  timebase : Rat
  zeroPoint : Rat
  endValue : Rat
  videoTracks : List TrackEntry
  audioTracks : List TrackEntry

/-- The dictionary built per project by `SessionInfo.get_info`. -/
structure ProjEntry where
  documentID : String
  name : String
  path : String
  sequences : List SeqEntry
  activeSequence : PSequence

namespace SessionInfo

/-- `SessionInfo.get_transitions` (`session_info.py` lines 22-40). -/
def get_transitions (transitions : List PTransition) (timebase : Rat) :
    List TransitionEntry :=
  transitions.foldl (fun items i =>
    items ++ [{ name := i.name
                duration := i.durationTicks / timebase
                start := i.startTicks / timebase
                endValue := i.endTicks / timebase
                mediaType := i.mediaType
                speed := i.speed }]) []

/-- `SessionInfo.get_clip_items` (`session_info.py` lines 42-80). -/
def get_clip_items (clips : List PTrackClip) (timebase : Rat) :
    List ClipEntry :=
  clips.foldl (fun items i =>
    items ++ [{ name := i.name
                duration := i.durationTicks / timebase
                start := i.startTicks / timebase
                endValue := i.endTicks / timebase
                inPoint := i.inPointTicks / timebase
                outPoint := i.outPointTicks / timebase
                mediaType := i.mediaType
                sourcePathClip := i.mediaPath
                isSelected := i.isSelected
                speed := i.speed
                isAdjustmentLayer := i.isAdjustmentLayer }]) []

/-- `SessionInfo.get_tracks` (`session_info.py` lines 82-101).  Line 90
rebinds the `tracks` parameter to a fresh empty list (`tracks = list()`)
before the loop, so the loop iterates over that empty list. -/
def get_tracks (tracks : List PTrack) (timebase : Rat) : List TrackEntry :=
  let tracks : List PTrack := []
  tracks.foldl (fun acc t =>
    acc ++ [{ id := t.id
              name := t.name
              mediaType := t.mediaType
              clips := get_clip_items t.clips timebase
              transitions := get_transitions t.transitions timebase
              isMuted := t.isMuted }]) []

/-- `SessionInfo.get_sequences` (`session_info.py` lines 103-129).  Line
110 rebinds the `sequences` parameter to a fresh empty list
(`sequences = list()`) before the loop, exactly like `get_tracks`, so the
loop iterates over that empty list. -/
def get_sequences (engine : Engine) (sequences : List PSequence) :
    List SeqEntry :=
  let sequences : List PSequence := []
  let prj := engine.appProject
  let active_seq := prj.activeSequence
  sequences.foldl (fun acc s =>
    if s.name = active_seq.name then
      acc ++ [{ sequenceID := s.sequenceID
                name := s.name
                inPoint := s.inPointTicks / s.timebase
                outPoint := s.outPointTicks / s.timebase
                timebase := s.timebase
                zeroPoint := s.zeroPoint / s.timebase
                endValue := s.endValue / s.timebase
                videoTracks := get_tracks s.videoTracks s.timebase
                audioTracks := get_tracks s.audioTracks s.timebase }]
    else acc) []

/-- `SessionInfo.get_info` (`session_info.py` lines 131-147). -/
def get_info (engine : Engine) : List ProjEntry :=
  engine.appProjects.foldl (fun acc p =>
    acc ++ [{ documentID := p.documentID
              name := p.name
              path := p.path
              sequences := get_sequences engine p.sequences
              activeSequence := p.activeSequence }]) []

end SessionInfo

/-- C2: for every list of tracks and every timebase,
`SessionInfo.get_tracks` returns the empty list — the method rebinds its
`tracks` parameter to a fresh empty list before iterating, so no input
track is ever converted to a dictionary. -/
theorem get_tracks_returns_empty (tracks : List PTrack) (timebase : Rat) :
    SessionInfo.get_tracks tracks timebase = [] :=
  rfl

/-- A concrete sequence named "A". -/
def wSeqA : PSequence :=
  { sequenceID := "seq-a", name := "A", inPointTicks := 10, outPointTicks := 20
    timebase := 2, zeroPoint := 0, endValue := 20, videoTracks := [], audioTracks := [] }

/-- A concrete sequence named "B". -/
def wSeqB : PSequence :=
  { sequenceID := "seq-b", name := "B", inPointTicks := 4, outPointTicks := 16
    timebase := 2, zeroPoint := 2, endValue := 16, videoTracks := [], audioTracks := [] }

/-- A project whose sequence list contains sequences named "A" and "B" and
whose active sequence is named "B" — the scenario of claim C1. -/
def wProjectAB : PProject :=
  { documentID := "doc-1", name := "proj", path := "/tmp/proj.prproj"
    sequences := [wSeqA, wSeqB], activeSequence := wSeqB }

/-- The engine for the C1 scenario: `wProjectAB` is both the current
project and the only open project. -/
def wEngineAB : Engine := { appProject := wProjectAB, appProjects := [wProjectAB] }

/-- C1 (code bug, evaluated at the failing input): for the project with
sequences named "A" and "B" and active sequence "B", `get_info` returns a
single project entry whose sequence list is empty — not a single entry
named "B" as the claim states — because `get_sequences` rebinds its
`sequences` parameter to a fresh empty list before the loop
(`session_info.py` line 110), making the loop body dead code. -/
theorem get_info_active_sequence_entry_dropped :
    (SessionInfo.get_info wEngineAB).map ProjEntry.sequences = [[]] :=
  rfl

/-! ## Metadata read/write (`PremiereItem.get_meta_data` / `set_meta_data`)

The source reads and writes one property inside the XMP blob with three
concrete regular expressions over the blob string:

* search `<premierePrivateProjectMetaData:P>(.*)</premierePrivateProjectMetaData:P>`
* substitute (all occurrences) of the same pattern,
* substitute (first occurrence) of
  `<premierePrivateProjectMetaData:[^<]+>(.*)</premierePrivateProjectMetaData:.*>`.

These patterns use only literal runs and greedy repetitions of a
single-character class (`.` = any char but newline, `[^<]` = any char but
`<`), so they are embedded with a small backtracking matcher over exactly
those two piece shapes, with Python's leftmost-then-greedy semantics.  The
property name is spliced into the pattern text by `%`-formatting, so the
embedding (which treats it as a literal) is faithful for property names
containing no regex metacharacters; the replacement text is spliced the
same way and treated literally, faithful for values containing no
backslash.  All theorems below restrict names/values accordingly. -/

/-- One piece of a pattern: a literal run of characters, or a greedy
repetition of any single character not in `excl` (at least one character
when `min1`, capturing the consumed run when `capture`). -/
inductive Piece where
  | lit (s : List Char)
  | rep (excl : List Char) (min1 : Bool) (capture : Bool)

/-- Candidate lengths for a greedy repetition, longest first:
`m, m-1, ..., lo` (empty when `lo > m`). -/
def descRange (m lo : Nat) : List Nat :=
  (List.range (m + 1 - lo)).map (fun i => m - i)

theorem mem_descRange {m lo k : Nat} :
    k ∈ descRange m lo ↔ lo ≤ k ∧ k ≤ m := by
  unfold descRange
  rw [List.mem_map]
  constructor
  · rintro ⟨i, hi, rfl⟩
    rw [List.mem_range] at hi
    omega
  · rintro ⟨h1, h2⟩
    exact ⟨m - k, by rw [List.mem_range]; omega, by omega⟩

/-- Match a list of pieces at the start of the input, with greedy
backtracking for repetitions (longest candidate first).  Returns the
concatenation of the captured groups and the suffix remaining after the
match. -/
def matchHere : List Piece → List Char → Option (List Char × List Char)
  | [], s => some ([], s)
  | Piece.lit l :: ps, s =>
    if l.isPrefixOf s then matchHere ps (s.drop l.length) else none
  | Piece.rep excl min1 cap :: ps, s =>
    let maxT := (s.takeWhile (fun c => !(excl.contains c))).length
    let lo := if min1 then 1 else 0
    (descRange maxT lo).findSome? (fun n =>
      (matchHere ps (s.drop n)).map (fun pr =>
        ((if cap then s.take n else []) ++ pr.1, pr.2)))

/-- `re.search`: try the match at every start position, leftmost first
(including the empty suffix at the end, as Python does); return the capture
of the first position that matches. -/
def reSearch (pat : List Piece) : List Char → Option (List Char)
  | [] =>
    match matchHere pat [] with
    | some pr => some pr.1
    | none => none
  | c :: t =>
    match matchHere pat (c :: t) with
    | some pr => some pr.1
    | none => reSearch pat t

/-- `re.sub` with a literal replacement and no count limit: replace every
non-overlapping match, scanning left to right and continuing after each
match's end.  Written with an explicit fuel so the recursion is structural
(and hence kernel-computable); every step shortens the input, so with fuel
`length + 1` the zero-fuel branch is unreachable (`subAllAux_fuel_eq`
below).  Our patterns always consume at least their leading literal, so the
length guard is never false for them; it only keeps the step sound for
arbitrary patterns. -/
def subAllAux (pat : List Piece) (repl : List Char) : Nat → List Char → List Char
  | 0, s => s
  | fuel + 1, s =>
    match matchHere pat s with
    | some pr =>
      if pr.2.length < s.length then repl ++ subAllAux pat repl fuel pr.2
      else repl ++ pr.2
    | none =>
      match s with
      | [] => []
      | c :: t => c :: subAllAux pat repl fuel t

def subAll (pat : List Piece) (repl : List Char) (s : List Char) : List Char :=
  subAllAux pat repl (s.length + 1) s

theorem subAllAux_fuel_eq (pat : List Piece) (repl : List Char) :
    ∀ (f1 f2 : Nat) (s : List Char), s.length < f1 → s.length < f2 →
      subAllAux pat repl f1 s = subAllAux pat repl f2 s := by
  intro f1
  induction f1 with
  | zero => intro f2 s h1 h2; omega
  | succ f1 ih =>
    intro f2 s h1 h2
    cases f2 with
    | zero => omega
    | succ f2 =>
      cases s with
      | nil => rfl
      | cons c t =>
        rw [subAllAux, subAllAux]
        cases hm : matchHere pat (c :: t) with
        | some pr =>
          simp only
          by_cases hl : pr.2.length < (c :: t).length
          · rw [if_pos hl, if_pos hl,
              ih f2 pr.2 (by simp at h1 hl ⊢; omega) (by simp at h2 hl ⊢; omega)]
          · rw [if_neg hl, if_neg hl]
        | none =>
          simp only
          rw [ih f2 t (by simp at h1 ⊢; omega) (by simp at h2 ⊢; omega)]

/-- The one-step unfolding of `subAll`. -/
theorem subAll_eq (pat : List Piece) (repl : List Char) (s : List Char) :
    subAll pat repl s =
      match matchHere pat s with
      | some pr =>
        if pr.2.length < s.length then repl ++ subAll pat repl pr.2
        else repl ++ pr.2
      | none =>
        match s with
        | [] => []
        | c :: t => c :: subAll pat repl t := by
  cases s with
  | nil =>
    rw [subAll]
    rw [show ([] : List Char).length + 1 = 0 + 1 from rfl]
    rw [subAllAux]
    cases hm : matchHere pat ([] : List Char) with
    | some pr => simp
    | none => simp
  | cons c t =>
    rw [subAll, subAllAux]
    cases hm : matchHere pat (c :: t) with
    | some pr =>
      simp only
      by_cases hl : pr.2.length < (c :: t).length
      · rw [if_pos hl, if_pos hl,
          subAllAux_fuel_eq pat repl (c :: t).length (pr.2.length + 1) pr.2 hl (by omega)]
        rfl
      · rw [if_neg hl, if_neg hl]
    | none =>
      simp only
      rw [subAllAux_fuel_eq pat repl (c :: t).length (t.length + 1) t (by simp) (by simp)]
      rfl

/-- `re.sub` with a literal replacement and `count=1`: replace only the
leftmost match. -/
def sub1 (pat : List Piece) (repl : List Char) : List Char → List Char
  | [] =>
    match matchHere pat [] with
    | some pr => repl ++ pr.2
    | none => []
  | c :: t =>
    match matchHere pat (c :: t) with
    | some pr => repl ++ pr.2
    | none => c :: sub1 pat repl t

/-- The namespace prefix of every metadata property tag. -/
def metaMarker : List Char := "<premierePrivateProjectMetaData:".toList

/-- The prefix of every closing metadata property tag. -/
def metaCloseMarker : List Char := "</premierePrivateProjectMetaData:".toList

/-- `<premierePrivateProjectMetaData:prop>` -/
def openTag (prop : List Char) : List Char := metaMarker ++ prop ++ ['>']

/-- `</premierePrivateProjectMetaData:prop>` -/
def closeTag (prop : List Char) : List Char := metaCloseMarker ++ prop ++ ['>']

/-- A full property entry `<...:prop>value</...:prop>` — also the
replacement text both substitutions of `set_meta_data` insert. -/
def propEntry (prop value : List Char) : List Char :=
  openTag prop ++ value ++ closeTag prop

/-- The pattern
`<premierePrivateProjectMetaData:prop>(.*)</premierePrivateProjectMetaData:prop>`
(`premiere.py` lines 99-102 and 121-125). -/
def propPattern (prop : List Char) : List Piece :=
  [.lit (openTag prop), .rep ['\n'] false true, .lit (closeTag prop)]

/-- The fallback pattern
`<premierePrivateProjectMetaData:[^<]+>(.*)</premierePrivateProjectMetaData:.*>`
(`premiere.py` lines 130-135). -/
def anyPropPattern : List Piece :=
  [.lit metaMarker, .rep ['<'] true false, .lit ['>'],
   .rep ['\n'] false true, .lit metaCloseMarker, .rep ['\n'] false false, .lit ['>']]

/-- `PremiereItem.get_meta_data` (`premiere.py` lines 73-108): search the
blob for the property's tag pair and return the captured inner text, or
`none` when the property is absent (or never set). -/
def get_meta_data (blob prop : List Char) : Option (List Char) :=
  reSearch (propPattern prop) blob

/-- `PremiereItem.set_meta_data` (`premiere.py` lines 110-138): substitute
the value inside an existing tag pair for the property; if nothing changed,
substitute the first occurrence of any property tag pair with a fresh tag
pair for the requested property.  Returns the new blob (the string the
source passes to the host `setProjectMetadata` call). -/
def set_meta_data (blob prop value : List Char) : List Char :=
  let repl := subAll (propPattern prop) (propEntry prop value) blob
  if repl = blob then sub1 anyPropPattern (propEntry prop value) blob
  else repl

/-- The pattern text `p` occurs in `s` starting at index `i`. -/
def OccursAt (p s : List Char) (i : Nat) : Prop := p <+: s.drop i

instance instDecidableOccursAt (p s : List Char) (i : Nat) : Decidable (OccursAt p s i) :=
  decidable_of_iff (p.isPrefixOf (s.drop i) = true) List.isPrefixOf_iff_prefix

/-- A property name the regex treats literally: nonempty and alphanumeric
(the source splices the name into the pattern by `%`-formatting, so a name
with regex metacharacters would change the pattern's meaning). -/
def SafeName (p : List Char) : Prop := p ≠ [] ∧ ∀ c ∈ p, c.isAlphanum

/-- A value the replacement treats literally: no newline (`.` does not
match newlines), no `<` (would fabricate tag starts), and no backslash
(`re.sub` would interpret it in the replacement text). -/
def SafeValue (v : List Char) : Prop := ∀ c ∈ v, c ≠ '\n' ∧ c ≠ '<' ∧ c ≠ '\\'

def safeNameB (p : List Char) : Bool := (!p.isEmpty) && p.all Char.isAlphanum

instance instDecidableSafeName (p : List Char) : Decidable (SafeName p) :=
  decidable_of_iff (safeNameB p = true) (by
    unfold safeNameB SafeName
    simp [List.isEmpty_iff, List.all_eq_true])

def safeValueB (v : List Char) : Bool :=
  v.all (fun c => c ≠ '\n' && c ≠ '<' && c ≠ '\\')

instance instDecidableSafeValue (v : List Char) : Decidable (SafeValue v) :=
  decidable_of_iff (safeValueB v = true) (by
    unfold safeValueB SafeValue
    simp [List.all_eq_true, and_assoc])

theorem matchHere_lit_cons_none {l : List Char} {ps : List Piece} {s : List Char}
    (h : ¬ l <+: s) : matchHere (.lit l :: ps) s = none := by
  rw [matchHere]
  rw [if_neg (fun hb => h (List.isPrefixOf_iff_prefix.mp hb))]

theorem reSearch_eq_none {pat : List Piece} {s : List Char}
    (h : ∀ i, matchHere pat (s.drop i) = none) : reSearch pat s = none := by
  induction s with
  | nil =>
    have h0 := h 0
    rw [List.drop_zero] at h0
    rw [reSearch, h0]
  | cons c t ih =>
    have h0 := h 0
    rw [List.drop_zero] at h0
    rw [reSearch, h0]
    exact ih (fun i => h (i + 1))

theorem reSearch_eq_some {pat : List Piece} {s : List Char} {i : Nat}
    {cap rest : List Char}
    (hbefore : ∀ j < i, matchHere pat (s.drop j) = none)
    (hat : matchHere pat (s.drop i) = some (cap, rest)) :
    reSearch pat s = some cap := by
  induction s generalizing i with
  | nil =>
    rw [List.drop_of_length_le (by simp)] at hat
    rw [reSearch, hat]
  | cons c t ih =>
    cases i with
    | zero =>
      rw [List.drop_zero] at hat
      rw [reSearch, hat]
    | succ i =>
      have h0 := hbefore 0 (by omega)
      rw [List.drop_zero] at h0
      rw [reSearch, h0]
      exact ih (fun j hj => hbefore (j + 1) (by omega)) hat

theorem subAll_no_match {pat : List Piece} {repl s : List Char}
    (h : ∀ i, matchHere pat (s.drop i) = none) : subAll pat repl s = s := by
  induction s with
  | nil =>
    have h0 := h 0
    rw [List.drop_zero] at h0
    rw [subAll_eq, h0]
  | cons c t ih =>
    have h0 := h 0
    rw [List.drop_zero] at h0
    rw [subAll_eq, h0]
    simp only
    rw [ih (fun i => h (i + 1))]

theorem sub1_no_match {pat : List Piece} {repl s : List Char}
    (h : ∀ i, matchHere pat (s.drop i) = none) : sub1 pat repl s = s := by
  induction s with
  | nil =>
    have h0 := h 0
    rw [List.drop_zero] at h0
    rw [sub1, h0]
  | cons c t ih =>
    have h0 := h 0
    rw [List.drop_zero] at h0
    rw [sub1, h0]
    rw [ih (fun i => h (i + 1))]

/-- `subAll` on a string with a single match region `m` (matching with rest
exactly the trailing context `b`): the region is replaced and the rest kept. -/
theorem subAll_single {pat : List Piece} {repl a m b cap : List Char}
    (ha : ∀ j < a.length, matchHere pat ((a ++ m ++ b).drop j) = none)
    (hm : matchHere pat (m ++ b) = some (cap, b))
    (hm0 : m ≠ [])
    (hb : ∀ i, matchHere pat (b.drop i) = none) :
    subAll pat repl (a ++ m ++ b) = a ++ repl ++ b := by
  induction a with
  | nil =>
    simp only [List.nil_append]
    rw [subAll_eq, hm]
    simp only
    have hlt : b.length < (m ++ b).length := by
      simp only [List.length_append]
      cases m with
      | nil => exact absurd rfl hm0
      | cons x xs => simp
    rw [if_pos hlt, subAll_no_match hb]
  | cons c a ih =>
    have h0 := ha 0 (by simp)
    rw [List.drop_zero] at h0
    simp only [List.cons_append] at h0 ⊢
    rw [subAll_eq, h0]
    simp only
    rw [ih (fun j hj => by
      have := ha (j + 1) (by simp only [List.length_cons]; omega)
      simpa using this)]

/-- `sub1` on a string whose leftmost match region is `m` (matching with
rest exactly the trailing context `b`): the region is replaced and
scanning stops. -/
theorem sub1_single {pat : List Piece} {repl a m b cap : List Char}
    (ha : ∀ j < a.length, matchHere pat ((a ++ m ++ b).drop j) = none)
    (hm : matchHere pat (m ++ b) = some (cap, b)) :
    sub1 pat repl (a ++ m ++ b) = a ++ repl ++ b := by
  induction a with
  | nil =>
    cases hmb : m ++ b with
    | nil =>
      rw [List.nil_append, hmb, sub1]
      rw [hmb] at hm
      rw [hm]
      simp
    | cons x xs =>
      rw [List.nil_append, hmb, sub1, ← hmb, hm]
      simp
  | cons c a ih =>
    have h0 := ha 0 (by simp)
    rw [List.drop_zero] at h0
    simp only [List.cons_append] at h0 ⊢
    rw [sub1, h0]
    rw [ih (fun j hj => by
      have := ha (j + 1) (by simp only [List.length_cons]; omega)
      simpa using this)]

theorem openTag_prefix_marker {prop s : List Char} (h : openTag prop <+: s) :
    metaMarker <+: s := by
  apply List.IsPrefix.trans _ h
  rw [openTag, List.append_assoc]
  exact List.prefix_append metaMarker (prop ++ ['>'])

/-- Where the marker does not occur, the property pattern cannot match. -/
theorem matchHere_propPattern_none_of_no_marker {prop blob : List Char} {i : Nat}
    (h : ¬ OccursAt metaMarker blob i) :
    matchHere (propPattern prop) (blob.drop i) = none := by
  rw [propPattern]
  exact matchHere_lit_cons_none (fun hp => h (openTag_prefix_marker hp))

/-- Where the marker does not occur, the fallback pattern cannot match. -/
theorem matchHere_anyPropPattern_none_of_no_marker {blob : List Char} {i : Nat}
    (h : ¬ OccursAt metaMarker blob i) :
    matchHere anyPropPattern (blob.drop i) = none := by
  rw [anyPropPattern]
  exact matchHere_lit_cons_none h

/-- A nonempty pattern occurs nowhere as soon as it occurs at no index below
the length (indices past the end only fit the empty pattern). -/
theorem noOccursAt_of_bounded {p s : List Char} (hp : p ≠ [])
    (hb : ∀ i < s.length, ¬ OccursAt p s i) : ∀ i, ¬ OccursAt p s i := by
  intro i hocc
  by_cases hlt : i < s.length
  · exact hb i hlt hocc
  · rw [OccursAt, List.drop_of_length_le (by omega)] at hocc
    rcases hocc with ⟨t, ht⟩
    cases p with
    | nil => exact hp rfl
    | cons x xs => simp at ht

/-- C5: for every property name and value, `set_meta_data` applied to a
metadata blob containing zero existing property entries (no occurrence of
the `<premierePrivateProjectMetaData:` marker) does not raise and leaves
the blob unchanged — both substitutions match nothing — and a subsequent
`get_meta_data` on the result returns the absent value `none`. -/
theorem set_meta_data_zero_entries (blob prop value : List Char)
    (h : ∀ i, ¬ OccursAt metaMarker blob i) :
    set_meta_data blob prop value = blob ∧
    get_meta_data (set_meta_data blob prop value) prop = none := by
  have hP : ∀ i, matchHere (propPattern prop) (blob.drop i) = none :=
    fun i => matchHere_propPattern_none_of_no_marker (h i)
  have hA : ∀ i, matchHere anyPropPattern (blob.drop i) = none :=
    fun i => matchHere_anyPropPattern_none_of_no_marker (h i)
  have hset : set_meta_data blob prop value = blob := by
    rw [set_meta_data]
    simp only [subAll_no_match hP, if_pos]
    exact sub1_no_match hA
  refine ⟨hset, ?_⟩
  rw [hset, get_meta_data]
  exact reSearch_eq_none hP

/-- A metadata blob with zero property entries. -/
def wEmptyBlob : List Char := "<?xpacket?>\n<x:xmpmeta>\n</x:xmpmeta>".toList

theorem set_meta_data_zero_entries_witness :
    set_meta_data wEmptyBlob "myprop".toList "test".toList = wEmptyBlob ∧
    get_meta_data (set_meta_data wEmptyBlob "myprop".toList "test".toList)
      "myprop".toList = none :=
  set_meta_data_zero_entries wEmptyBlob "myprop".toList "test".toList
    (noOccursAt_of_bounded (by decide) (by decide))

/-- C4 counterexample: the round trip fails for a value containing a
newline.  On the blob holding the single entry
`<premierePrivateProjectMetaData:myprop>old</premierePrivateProjectMetaData:myprop>`
(at least one existing property entry), writing the value `"a\nb"` for
`myprop` succeeds, but reading `myprop` back returns `none` — the search
pattern's `(.*)` group cannot cross the newline — not the written value. -/
theorem set_get_meta_data_newline_counterexample :
    get_meta_data (set_meta_data (propEntry "myprop".toList "old".toList)
      "myprop".toList "a\nb".toList) "myprop".toList ≠ some "a\nb".toList := by
  decide

/-! ### Character facts about the fixed markers and safe names -/

theorem mem_of_getElem?_some {l : List Char} {i : Nat} {a : Char}
    (h : l[i]? = some a) : a ∈ l := by
  rcases List.getElem?_eq_some.mp h with ⟨hlt, rfl⟩
  exact List.getElem_mem hlt

theorem isAlphanum_ne {c : Char} (h : c.isAlphanum = true) :
    c ≠ '\n' ∧ c ≠ '<' ∧ c ≠ '>' := by
  refine ⟨?_, ?_, ?_⟩ <;> (rintro rfl; exact absurd h (by decide))

theorem safeName_no_lt {p : List Char} (h : SafeName p) : '<' ∉ p := by
  intro hmem
  exact (isAlphanum_ne (h.2 '<' hmem)).2.1 rfl

theorem safeName_no_gt {p : List Char} (h : SafeName p) : '>' ∉ p := by
  intro hmem
  exact (isAlphanum_ne (h.2 '>' hmem)).2.2 rfl

theorem safeName_no_nl {p : List Char} (h : SafeName p) : '\n' ∉ p := by
  intro hmem
  exact (isAlphanum_ne (h.2 '\n' hmem)).1 rfl

theorem metaMarker_ne_nil : metaMarker ≠ [] := by decide

theorem metaCloseMarker_ne_nil : metaCloseMarker ≠ [] := by decide

theorem metaMarker_head : metaMarker.head? = some '<' := by decide

theorem metaCloseMarker_head : metaCloseMarker.head? = some '<' := by decide

theorem metaMarker_no_lt_tail : '<' ∉ metaMarker.drop 1 := by decide

theorem metaCloseMarker_no_lt_tail : '<' ∉ metaCloseMarker.drop 1 := by decide

theorem metaMarker_no_nl : '\n' ∉ metaMarker := by decide

theorem metaCloseMarker_no_nl : '\n' ∉ metaCloseMarker := by decide

theorem metaMarker_one : metaMarker[1]? = some 'p' := by decide

theorem metaCloseMarker_one : metaCloseMarker[1]? = some '/' := by decide

theorem closeTag_no_nl {p : List Char} (hp : SafeName p) : '\n' ∉ closeTag p := by
  rw [closeTag]
  intro hmem
  rcases List.mem_append.mp hmem with h1 | h1
  · rcases List.mem_append.mp h1 with h2 | h2
    · exact metaCloseMarker_no_nl h2
    · exact safeName_no_nl hp h2
  · simp at h1

theorem openTag_no_nl {p : List Char} (hp : SafeName p) : '\n' ∉ openTag p := by
  rw [openTag]
  intro hmem
  rcases List.mem_append.mp hmem with h1 | h1
  · rcases List.mem_append.mp h1 with h2 | h2
    · exact metaMarker_no_nl h2
    · exact safeName_no_nl hp h2
  · simp at h1

theorem closeTag_ne_nil (p : List Char) : closeTag p ≠ [] := by
  rw [closeTag]
  simp [metaCloseMarker]

theorem openTag_ne_nil (p : List Char) : openTag p ≠ [] := by
  rw [openTag]
  simp [metaMarker]

theorem closeTag_head (p : List Char) : (closeTag p).head? = some '<' := by
  rw [closeTag, List.append_assoc]
  rw [show metaCloseMarker = '<' :: metaCloseMarker.drop 1 from by decide]
  rfl

theorem openTag_head (p : List Char) : (openTag p).head? = some '<' := by
  rw [openTag, List.append_assoc]
  rw [show metaMarker = '<' :: metaMarker.drop 1 from by decide]
  rfl

theorem closeTag_no_lt_tail {p : List Char} (hp : SafeName p) :
    '<' ∉ (closeTag p).drop 1 := by
  rw [closeTag, List.append_assoc,
    show metaCloseMarker = '<' :: metaCloseMarker.drop 1 from by decide]
  simp only [List.cons_append, List.drop_succ_cons, List.drop_zero]
  intro hmem
  rcases List.mem_append.mp hmem with h1 | h1
  · exact metaCloseMarker_no_lt_tail h1
  · rcases List.mem_append.mp h1 with h2 | h2
    · exact safeName_no_lt hp h2
    · simp at h2

theorem openTag_no_lt_tail {p : List Char} (hp : SafeName p) :
    '<' ∉ (openTag p).drop 1 := by
  rw [openTag, List.append_assoc,
    show metaMarker = '<' :: metaMarker.drop 1 from by decide]
  simp only [List.cons_append, List.drop_succ_cons, List.drop_zero]
  intro hmem
  rcases List.mem_append.mp hmem with h1 | h1
  · exact metaMarker_no_lt_tail h1
  · rcases List.mem_append.mp h1 with h2 | h2
    · exact safeName_no_lt hp h2
    · simp at h2

/-! ### Prefix and position helpers -/

theorem prefix_head_eq {p s : List Char} {c : Char} (h : p <+: s)
    (hp : p.head? = some c) : s.head? = some c := by
  rcases h with ⟨t, rfl⟩
  cases p with
  | nil => simp at hp
  | cons x xs => simpa using hp

theorem not_prefix_of_head_ne {p s : List Char} {cp : Char}
    (hp : p.head? = some cp) (hs : s.head? ≠ some cp) : ¬ p <+: s :=
  fun h => hs (prefix_head_eq h hp)

theorem not_prefix_nil {p : List Char} (hp : p ≠ []) : ¬ p <+: ([] : List Char) := by
  intro h
  rcases h with ⟨t, ht⟩
  cases p with
  | nil => exact hp rfl
  | cons x xs => simp at ht

theorem prefix_getElem? {p s : List Char} (h : p <+: s) {j : Nat}
    (hj : j < p.length) : s[j]? = p[j]? := by
  rcases h with ⟨t, rfl⟩
  rw [List.getElem?_append_left hj]

/-- The head character of what follows `drop`. -/
theorem head_drop (l : List Char) (n : Nat) : (l.drop n).head? = l[n]? :=
  List.head?_drop l n

/-- A prefix of `a ++ w` at least as long as `a` starts with `a` and its
remainder is a prefix of `w`. -/
theorem prefix_head_eq_of_ne_nil {p s : List Char} (h : p <+: s) (hp : p ≠ []) :
    p.head? = s.head? := by
  rcases h with ⟨t, rfl⟩
  cases p with
  | nil => exact absurd rfl hp
  | cons x xs => simp

theorem prefix_split {p a w : List Char} (h : p <+: a ++ w)
    (hlen : a.length ≤ p.length) : p.take a.length = a ∧ p.drop a.length <+: w := by
  rcases h with ⟨t, ht⟩
  have h2 : (p ++ t).take a.length = p.take a.length :=
    List.take_append_of_le_length hlen
  rw [ht, List.take_left] at h2
  have htake : p.take a.length = a := h2.symm
  refine ⟨htake, ?_⟩
  have hsplit : p = a ++ p.drop a.length := by
    conv_lhs => rw [← List.take_append_drop a.length p, htake]
  rw [hsplit, List.append_assoc] at ht
  exact ⟨t, List.append_cancel_left ht⟩

/-- The only `<` in `metaMarker` is its head. -/
theorem marker_tail_no_lt {k : Nat} (h1 : 0 < k) :
    metaMarker[k]? ≠ some '<' := by
  intro hc
  have heq : metaMarker[k]? = (metaMarker.drop 1)[k - 1]? := by
    rw [List.getElem?_drop]
    congr 1
    omega
  rw [heq] at hc
  exact metaMarker_no_lt_tail (mem_of_getElem?_some hc)

/-- A marker occurrence cannot straddle the boundary into a region whose
first character is `<`: the marker's only `<` is its head. -/
theorem no_marker_span {u w : List Char} {i : Nat}
    (hw : w.head? = some '<')
    (hocc : OccursAt metaMarker (u ++ w) i)
    (h1 : i < u.length) (h2 : u.length < i + metaMarker.length) : False := by
  rw [OccursAt, List.drop_append_of_le_length (by omega)] at hocc
  have hlen : (u.drop i).length ≤ metaMarker.length := by
    rw [List.length_drop]
    omega
  have hsp := (prefix_split hocc hlen).2
  have hne : metaMarker.drop (u.drop i).length ≠ [] := by
    intro hnil
    have := List.length_drop (u.drop i).length metaMarker
    rw [hnil] at this
    simp only [List.length_nil] at this
    rw [List.length_drop] at this
    omega
  have hhead := prefix_head_eq_of_ne_nil hsp hne
  rw [hw, head_drop] at hhead
  exact marker_tail_no_lt (by rw [List.length_drop]; omega) hhead

/-- An occurrence wholly inside the left part of an append. -/
theorem occursAt_left {p u w : List Char} {i : Nat}
    (hocc : OccursAt p (u ++ w) i) (h : i + p.length ≤ u.length) :
    OccursAt p u i := by
  rw [OccursAt, List.drop_append_of_le_length (by omega)] at hocc
  rw [OccursAt]
  rw [List.prefix_iff_eq_take] at hocc ⊢
  rw [List.take_append_of_le_length (by rw [List.length_drop]; omega)] at hocc
  exact hocc

/-- An occurrence starting at or past the left part lies in the right part. -/
theorem occursAt_right {p u w : List Char} {i : Nat}
    (hocc : OccursAt p (u ++ w) i) (h : u.length ≤ i) :
    OccursAt p w (i - u.length) := by
  rw [OccursAt] at hocc ⊢
  rw [show i = u.length + (i - u.length) from by omega, List.drop_append] at hocc
  exact hocc

/-! ### takeWhile and findSome? helpers -/

theorem takeWhile_append_all {p : Char → Bool} {u w : List Char}
    (h : ∀ c ∈ u, p c = true) :
    (u ++ w).takeWhile p = u ++ w.takeWhile p := by
  induction u with
  | nil => simp
  | cons c u ih =>
    rw [List.cons_append, List.takeWhile_cons, if_pos (h c (by simp))]
    rw [ih (fun x hx => h x (by simp [hx])), List.cons_append]

theorem takeWhile_head_stop {p : Char → Bool} {w : List Char}
    (h : w = [] ∨ ∃ c, w.head? = some c ∧ p c = false) :
    w.takeWhile p = [] := by
  rcases h with rfl | ⟨c, hc, hpc⟩
  · simp
  · cases w with
    | nil => simp
    | cons x xs =>
      simp only [List.head?_cons, Option.some.injEq] at hc
      subst hc
      rw [List.takeWhile_cons, if_neg (by simp [hpc])]

theorem findSome_unique {α β : Type} {l : List α} {f : α → Option β} {a : α} {b : β}
    (hmem : a ∈ l) (hfa : f a = some b)
    (hothers : ∀ x ∈ l, x ≠ a → f x = none) :
    l.findSome? f = some b := by
  induction l with
  | nil => simp at hmem
  | cons c t ih =>
    by_cases hca : c = a
    · subst hca
      rw [List.findSome?_cons, hfa]
    · rw [List.findSome?_cons, hothers c (by simp) hca]
      exact ih (by rcases List.mem_cons.mp hmem with h | h; exact absurd h.symm hca; exact h)
        (fun x hx hxa => hothers x (by simp [hx]) hxa)

theorem findSome_isSome {α β : Type} {l : List α} {f : α → Option β} {a : α}
    (hmem : a ∈ l) (hfa : (f a).isSome = true) :
    (l.findSome? f).isSome = true := by
  cases hfs : l.findSome? f with
  | some b => rfl
  | none =>
    rw [List.findSome?_eq_none_iff.mp hfs a hmem] at hfa
    simp at hfa

theorem head_append_left {a b : List Char} (ha : a ≠ []) :
    (a ++ b).head? = a.head? := by
  cases a with
  | nil => exact absurd rfl ha
  | cons x xs => simp

/-- If `<` is absent from `l.drop 1`, no positive position of `l` holds `<`. -/
theorem no_lt_tail_getElem {l : List Char} (h : '<' ∉ l.drop 1) {k : Nat}
    (h1 : 0 < k) : l[k]? ≠ some '<' := by
  intro hc
  have heq : l[k]? = (l.drop 1)[k - 1]? := by
    rw [List.getElem?_drop]
    congr 1
    omega
  rw [heq] at hc
  exact h (mem_of_getElem?_some hc)

/-- The repetition predicate of `.rep ['\n']` holds exactly off newlines. -/
theorem nlPred_iff (c : Char) : (!(List.contains ['\n'] c)) = true ↔ c ≠ '\n' := by
  simp

/-- The repetition predicate of `.rep ['<']` holds exactly off `<`. -/
theorem ltPred_iff (c : Char) : (!(List.contains ['<'] c)) = true ↔ c ≠ '<' := by
  simp

/-! ### The property pattern at a property entry -/

/-- Matching the property pattern exactly at its own entry: the greedy
group captures precisely the stored value and the match ends at the entry's
closing tag, provided the value contains no newline and no `<`, the name is
safe, and the entry ends its line (`t` empty or starting with a newline). -/
theorem matchHere_propPattern_entry {prop v t : List Char}
    (hname : SafeName prop)
    (hv_nl : '\n' ∉ v) (hv_lt : '<' ∉ v)
    (ht : t = [] ∨ t.head? = some '\n') :
    matchHere (propPattern prop) (propEntry prop v ++ t) = some (v, t) := by
  have hassoc : propEntry prop v ++ t = openTag prop ++ (v ++ (closeTag prop ++ t)) := by
    rw [propEntry]
    simp [List.append_assoc]
  rw [hassoc, propPattern, matchHere]
  rw [if_pos (List.isPrefixOf_iff_prefix.mpr (List.prefix_append _ _))]
  rw [List.drop_left]
  rw [matchHere]
  simp only
  have hmax : ((v ++ (closeTag prop ++ t)).takeWhile
      (fun c => !(List.contains ['\n'] c))).length
      = v.length + (closeTag prop).length := by
    rw [takeWhile_append_all (fun c hc => (nlPred_iff c).mpr (fun h => hv_nl (h ▸ hc)))]
    rw [takeWhile_append_all (fun c hc =>
      (nlPred_iff c).mpr (fun h => closeTag_no_nl hname (h ▸ hc)))]
    rw [takeWhile_head_stop (by
      rcases ht with rfl | hh
      · exact Or.inl rfl
      · exact Or.inr ⟨'\n', hh, by simp⟩)]
    simp
  rw [hmax]
  have hlo : (if (false : Bool) then 1 else 0) = 0 := rfl
  rw [hlo]
  apply findSome_unique (a := v.length) (b := (v, t))
  · exact mem_descRange.mpr ⟨by omega, by omega⟩
  · rw [List.drop_left]
    rw [matchHere]
    rw [if_pos (List.isPrefixOf_iff_prefix.mpr (List.prefix_append _ _))]
    rw [List.drop_left]
    rw [matchHere]
    simp [List.take_left]
  · intro n hn hne
    have hbound := (mem_descRange.mp hn).2
    have hnp : ¬ (closeTag prop <+: (v ++ (closeTag prop ++ t)).drop n) := by
      by_cases hlt : n < v.length
      · rw [List.drop_append_of_le_length (by omega)]
        apply not_prefix_of_head_ne (closeTag_head prop)
        rw [head_append_left (by
          intro hnil
          have := List.length_drop n v
          rw [hnil] at this
          simp only [List.length_nil] at this
          omega)]
        rw [head_drop, List.getElem?_eq_getElem hlt]
        intro hc
        simp only [Option.some.injEq] at hc
        exact hv_lt (hc ▸ List.getElem_mem hlt)
      · have hk : v.length < n := by omega
        rw [show n = v.length + (n - v.length) from by omega, List.drop_append]
        by_cases hkc : n - v.length < (closeTag prop).length
        · rw [List.drop_append_of_le_length (by omega)]
          apply not_prefix_of_head_ne (closeTag_head prop)
          rw [head_append_left (by
            intro hnil
            have := List.length_drop (n - v.length) (closeTag prop)
            rw [hnil] at this
            simp only [List.length_nil] at this
            omega)]
          rw [head_drop]
          exact no_lt_tail_getElem (closeTag_no_lt_tail hname) (by omega)
        · have hke : n - v.length = (closeTag prop).length := by omega
          rw [hke, List.drop_left]
          rcases ht with rfl | hh
          · exact not_prefix_nil (closeTag_ne_nil prop)
          · exact not_prefix_of_head_ne (closeTag_head prop) (by rw [hh]; simp)
    rw [matchHere_lit_cons_none hnp]
    rfl

/-! ### Uniqueness of the marker occurrence around a property entry -/

theorem propEntry_length (p v : List Char) :
    (propEntry p v).length = (openTag p).length + v.length + (closeTag p).length := by
  simp [propEntry]
  omega

theorem closeTag_length_ge (p : List Char) : 2 ≤ (closeTag p).length := by
  rw [closeTag]
  simp only [List.length_append, List.length_cons]
  have : metaCloseMarker.length = 33 := by decide
  omega

theorem propEntry_head (p v : List Char) : (propEntry p v).head? = some '<' := by
  rw [propEntry]
  rw [head_append_left (by
    intro h
    have := congrArg List.length h
    simp only [List.length_append, List.length_nil] at this
    have hop : (openTag p).length = metaMarker.length + p.length + 1 := by
      simp [openTag]
      omega
    have : metaMarker.length = 32 := by decide
    omega)]
  rw [head_append_left (openTag_ne_nil p)]
  exact openTag_head p

theorem propEntry_getElem_ne_lt {p v : List Char} (hp : SafeName p) (hv : '<' ∉ v)
    {k : Nat} (h1 : 0 < k) (h3 : k ≠ (openTag p).length + v.length) :
    (propEntry p v)[k]? ≠ some '<' := by
  rw [propEntry]
  by_cases hk1 : k < (openTag p).length
  · rw [List.getElem?_append_left (by simp only [List.length_append]; omega)]
    rw [List.getElem?_append_left hk1]
    exact no_lt_tail_getElem (openTag_no_lt_tail hp) h1
  · by_cases hk2 : k < (openTag p).length + v.length
    · rw [List.getElem?_append_left (by simp only [List.length_append]; omega)]
      rw [List.getElem?_append_right (by omega)]
      intro hc
      exact hv (mem_of_getElem?_some hc)
    · rw [List.getElem?_append_right (by simp only [List.length_append]; omega)]
      exact no_lt_tail_getElem (closeTag_no_lt_tail hp)
        (by simp only [List.length_append]; omega)

theorem propEntry_getElem_after_close (p v : List Char) :
    (propEntry p v)[(openTag p).length + v.length + 1]? = some '/' := by
  rw [propEntry]
  rw [List.getElem?_append_right (by simp only [List.length_append]; omega)]
  have hidx : (openTag p).length + v.length + 1 - (openTag p ++ v).length = 1 := by
    simp only [List.length_append]
    omega
  rw [hidx, closeTag]
  rw [List.getElem?_append_left (by
    simp only [List.length_append]
    have : metaCloseMarker.length = 33 := by decide
    omega)]
  rw [List.getElem?_append_left (by
    have : metaCloseMarker.length = 33 := by decide
    omega)]
  exact metaCloseMarker_one

theorem metaMarker_zero : metaMarker[0]? = some '<' := by decide

theorem one_lt_metaMarker_length : 1 < metaMarker.length := by decide

/-- In `pre ++ entry ++ post` where the marker occurs neither in `pre` nor
in `post`, the marker occurs only at the entry's opening tag. -/
theorem marker_occursAt_unique {pre post p v : List Char}
    (hp : SafeName p) (hv : '<' ∉ v)
    (hpre : ∀ i, ¬ OccursAt metaMarker pre i)
    (hpost : ∀ i, ¬ OccursAt metaMarker post i) :
    ∀ i, OccursAt metaMarker (pre ++ propEntry p v ++ post) i → i = pre.length := by
  intro i hocc
  rw [List.append_assoc] at hocc
  by_cases hi : i < pre.length
  · exfalso
    by_cases hfull : i + metaMarker.length ≤ pre.length
    · exact hpre i (occursAt_left hocc hfull)
    · refine no_marker_span ?_ hocc hi (by omega)
      rw [head_append_left (by
        intro h
        have := propEntry_head p v
        rw [h] at this
        simp at this)]
      exact propEntry_head p v
  · by_cases hi2 : i = pre.length
    · exact hi2
    · exfalso
      have hocc2 : OccursAt metaMarker (propEntry p v ++ post) (i - pre.length) :=
        occursAt_right hocc (by omega)
      have hkpos : 0 < i - pre.length := by omega
      have hhead : (propEntry p v ++ post)[i - pre.length]? = some '<' := by
        have h0 := prefix_getElem? hocc2 (j := 0)
          (by have := one_lt_metaMarker_length; omega)
        rw [List.getElem?_drop, metaMarker_zero] at h0
        simpa using h0
      by_cases hk1 : i - pre.length < (propEntry p v).length
      · have hcopos : i - pre.length = (openTag p).length + v.length := by
          by_contra hne
          rw [List.getElem?_append_left hk1] at hhead
          exact propEntry_getElem_ne_lt hp hv hkpos hne hhead
        have h1 := prefix_getElem? hocc2 (j := 1) one_lt_metaMarker_length
        rw [List.getElem?_drop] at h1
        rw [List.getElem?_append_left (by
          rw [propEntry_length]
          have := closeTag_length_ge p
          omega)] at h1
        rw [hcopos] at h1
        rw [propEntry_getElem_after_close] at h1
        rw [metaMarker_one] at h1
        exact absurd h1 (by decide)
      · exact hpost _ (occursAt_right hocc2 (by omega))

/-! ### The fallback pattern at a property entry -/

/-- Consuming a leading literal. -/
theorem matchHere_lit_consume (l : List Char) (ps : List Piece) (x : List Char) :
    matchHere (.lit l :: ps) (l ++ x) = matchHere ps x := by
  rw [matchHere]
  rw [if_pos (List.isPrefixOf_iff_prefix.mpr (List.prefix_append _ _))]
  rw [List.drop_left]

/-- Splitting a successful repetition step into the inner match. -/
theorem rep_map_some {inner : Option (List Char × List Char)} {cap : Bool}
    {s : List Char} {n : Nat} {pr : List Char × List Char}
    (h : (inner.map (fun q => ((if cap then s.take n else []) ++ q.1, q.2))) = some pr) :
    ∃ q, inner = some q ∧ pr.2 = q.2 := by
  cases inner with
  | none => simp at h
  | some q =>
    refine ⟨q, rfl, ?_⟩
    have h2 := Option.some.inj h
    rw [← h2]

/-- The trailing `.*>` of the fallback pattern, at the tail
`prop ++ ">" ++ rest-of-blob` of an entry: it always ends exactly at the
entry's final `>`. -/
theorem matchHere_tail_gt {p t : List Char} (hp : SafeName p)
    (ht : t = [] ∨ t.head? = some '\n') :
    ∃ cap, matchHere [Piece.rep ['\n'] false false, Piece.lit ['>']]
      (p ++ (['>'] ++ t)) = some (cap, t) := by
  have hmax : ((p ++ (['>'] ++ t)).takeWhile (fun c => !(List.contains ['\n'] c))).length
      = p.length + 1 := by
    rw [takeWhile_append_all (fun c hc => (nlPred_iff c).mpr
      (fun h => safeName_no_nl hp (h ▸ hc)))]
    rw [takeWhile_append_all (fun c hc => (nlPred_iff c).mpr
      (by rintro rfl; simp at hc))]
    rw [takeWhile_head_stop (by
      rcases ht with rfl | hh
      · exact Or.inl rfl
      · exact Or.inr ⟨'\n', hh, by simp⟩)]
    simp
  have hsome : (matchHere [Piece.rep ['\n'] false false, Piece.lit ['>']]
      (p ++ (['>'] ++ t))).isSome = true := by
    rw [matchHere]
    rw [hmax]
    apply findSome_isSome (a := p.length)
    · exact mem_descRange.mpr ⟨by simp, by omega⟩
    · rw [List.drop_left, matchHere_lit_consume _ _ t, matchHere]
      rfl
  rcases Option.isSome_iff_exists.mp hsome with ⟨pr, hpr⟩
  refine ⟨pr.1, ?_⟩
  have hsnd : pr.2 = t := by
    rw [matchHere] at hpr
    rw [hmax] at hpr
    rcases List.exists_of_findSome?_eq_some hpr with ⟨n, hnmem, hfn⟩
    rcases rep_map_some hfn with ⟨q, hq, hq2⟩
    have hbound := mem_descRange.mp hnmem
    rw [matchHere] at hq
    by_cases hpre : ['>'] <+: (p ++ (['>'] ++ t)).drop n
    · rw [if_pos (List.isPrefixOf_iff_prefix.mpr hpre)] at hq
      have hn : n = p.length := by
        by_contra hne
        by_cases hlt : n < p.length
        · have hhd := prefix_head_eq_of_ne_nil hpre (by simp)
          rw [head_drop, List.getElem?_append_left hlt,
            List.getElem?_eq_getElem hlt] at hhd
          simp only [List.head?_cons, Option.some.injEq] at hhd
          exact (isAlphanum_ne (hp.2 _ (List.getElem_mem hlt))).2.2 hhd.symm
        · have hn1 : n = p.length + 1 := by omega
          rw [hn1, List.drop_append] at hpre
          simp only [List.singleton_append, List.drop_succ_cons, List.drop_zero] at hpre
          rcases ht with rfl | hh
          · exact not_prefix_nil (by simp) hpre
          · exact not_prefix_of_head_ne (p := ['>']) rfl
              (by rw [hh]; simp) hpre
      subst hn
      rw [List.drop_left] at hq
      rw [show (['>'] ++ t : List Char) = '>' :: t from rfl] at hq
      simp only [List.length_cons, List.length_nil, List.drop_succ_cons,
        List.drop_zero] at hq
      rw [matchHere] at hq
      simp only [Option.some.injEq] at hq
      rw [hq2, ← hq]
    · rw [if_neg (fun hb => hpre (List.isPrefixOf_iff_prefix.mp hb))] at hq
      simp at hq
  rw [hpr, ← hsnd]

/-- The capture group and closing tag of the fallback pattern, at the rest
of an entry's line: after any `<`-free, newline-free run `w` (a suffix of
`prop ++ ">" ++ value`), the match always ends exactly at the entry's end. -/
theorem matchHere_tail_close {w p t : List Char} (hp : SafeName p)
    (hw_lt : '<' ∉ w) (hw_nl : '\n' ∉ w)
    (ht : t = [] ∨ t.head? = some '\n') :
    ∃ cap, matchHere (Piece.rep ['\n'] false true :: Piece.lit metaCloseMarker ::
      [Piece.rep ['\n'] false false, Piece.lit ['>']])
      (w ++ (metaCloseMarker ++ (p ++ (['>'] ++ t)))) = some (cap, t) := by
  have hmax : ((w ++ (metaCloseMarker ++ (p ++ (['>'] ++ t)))).takeWhile
      (fun c => !(List.contains ['\n'] c))).length
      = w.length + (metaCloseMarker.length + (p.length + 1)) := by
    rw [takeWhile_append_all (fun c hc => (nlPred_iff c).mpr
      (fun h => hw_nl (h ▸ hc)))]
    rw [takeWhile_append_all (fun c hc => (nlPred_iff c).mpr
      (fun h => metaCloseMarker_no_nl (h ▸ hc)))]
    rw [takeWhile_append_all (fun c hc => (nlPred_iff c).mpr
      (fun h => safeName_no_nl hp (h ▸ hc)))]
    rw [takeWhile_append_all (fun c hc => (nlPred_iff c).mpr
      (by rintro rfl; simp at hc))]
    rw [takeWhile_head_stop (by
      rcases ht with rfl | hh
      · exact Or.inl rfl
      · exact Or.inr ⟨'\n', hh, by simp⟩)]
    simp
  rcases matchHere_tail_gt hp ht with ⟨capg, hcapg⟩
  have hsome : (matchHere (Piece.rep ['\n'] false true :: Piece.lit metaCloseMarker ::
      [Piece.rep ['\n'] false false, Piece.lit ['>']])
      (w ++ (metaCloseMarker ++ (p ++ (['>'] ++ t))))).isSome = true := by
    rw [matchHere]
    rw [hmax]
    apply findSome_isSome (a := w.length)
    · exact mem_descRange.mpr ⟨by simp, by omega⟩
    · rw [List.drop_left, matchHere_lit_consume, hcapg]
      rfl
  rcases Option.isSome_iff_exists.mp hsome with ⟨pr, hpr⟩
  refine ⟨pr.1, ?_⟩
  have hsnd : pr.2 = t := by
    rw [matchHere] at hpr
    rw [hmax] at hpr
    rcases List.exists_of_findSome?_eq_some hpr with ⟨n, hnmem, hfn⟩
    rcases rep_map_some hfn with ⟨q, hq, hq2⟩
    have hbound := mem_descRange.mp hnmem
    by_cases hpre : metaCloseMarker
        <+: (w ++ (metaCloseMarker ++ (p ++ (['>'] ++ t)))).drop n
    · have hn : n = w.length := by
        have hhd := prefix_head_eq_of_ne_nil hpre metaCloseMarker_ne_nil
        rw [metaCloseMarker_head, head_drop] at hhd
        by_contra hne
        by_cases hlt : n < w.length
        · rw [List.getElem?_append_left hlt, List.getElem?_eq_getElem hlt] at hhd
          exact hw_lt ((Option.some.inj hhd.symm) ▸ List.getElem_mem hlt)
        · have hr : w.length < n := by omega
          rw [List.getElem?_append_right (by omega)] at hhd
          set r := n - w.length with hrdef
          have hr1 : 1 ≤ r := by omega
          have hrb : r ≤ metaCloseMarker.length + p.length + 1 := by omega
          by_cases hrm : r < metaCloseMarker.length
          · rw [List.getElem?_append_left hrm] at hhd
            exact no_lt_tail_getElem metaCloseMarker_no_lt_tail hr1 hhd.symm
          · rw [List.getElem?_append_right (by omega)] at hhd
            by_cases hrp : r - metaCloseMarker.length < p.length
            · rw [List.getElem?_append_left hrp,
                List.getElem?_eq_getElem hrp] at hhd
              exact (isAlphanum_ne (hp.2 _ (List.getElem_mem hrp))).2.1
                (Option.some.inj hhd.symm)
            · rw [List.getElem?_append_right (by omega)] at hhd
              have hre : r - metaCloseMarker.length - p.length = 1 ∨
                  r - metaCloseMarker.length - p.length = 0 := by omega
              rcases hre with hre | hre
              · rw [hre] at hhd
                rcases ht with rfl | hh
                · simp at hhd
                · rw [show ((['>'] ++ t : List Char))[1]? = t[0]? from by
                    rw [List.getElem?_append_right (by simp)]
                    simp] at hhd
                  rw [show t[0]? = t.head? from (head_drop t 0).symm.trans
                    (by rw [List.drop_zero])] at hhd
                  rw [hh] at hhd
                  exact absurd (Option.some.inj hhd) (by decide)
              · rw [hre] at hhd
                rw [show ((['>'] ++ t : List Char))[0]? = some '>' from by simp] at hhd
                exact absurd (Option.some.inj hhd) (by decide)
      subst hn
      rw [List.drop_left, matchHere_lit_consume, hcapg] at hq
      rw [hq2, ← Option.some.inj hq]
    · rw [matchHere_lit_cons_none hpre] at hq
      simp at hq
  rw [hpr, ← hsnd]

/-- Packaging one greedy-repetition step: if some candidate split succeeds
with remainder `t` and every successful candidate split has remainder `t`,
then the repetition step itself succeeds with remainder `t`. -/
theorem rep_step_full {excl : List Char} {min1 cap : Bool} {ps : List Piece}
    {s t : List Char}
    (hex : ∃ n, (if min1 then 1 else 0) ≤ n ∧
        n ≤ (s.takeWhile (fun c => !(excl.contains c))).length ∧
        ∃ c2, matchHere ps (s.drop n) = some (c2, t))
    (hall : ∀ n, n ≤ (s.takeWhile (fun c => !(excl.contains c))).length →
        ∀ q, matchHere ps (s.drop n) = some q → q.2 = t) :
    ∃ cap2, matchHere (Piece.rep excl min1 cap :: ps) s = some (cap2, t) := by
  rw [matchHere]
  rcases hex with ⟨n, hlo, hhi, c2, hc2⟩
  have hsome : ((descRange (s.takeWhile (fun c => !(excl.contains c))).length
      (if min1 then 1 else 0)).findSome? (fun n =>
        (matchHere ps (s.drop n)).map (fun pr =>
          ((if cap then s.take n else []) ++ pr.1, pr.2)))).isSome = true := by
    apply findSome_isSome (a := n) (mem_descRange.mpr ⟨hlo, hhi⟩)
    rw [hc2]
    rfl
  rcases Option.isSome_iff_exists.mp hsome with ⟨pr, hpr⟩
  refine ⟨pr.1, ?_⟩
  rcases List.exists_of_findSome?_eq_some hpr with ⟨m, hm, hfm⟩
  rcases rep_map_some hfm with ⟨q, hq, hq2⟩
  have hq2t : q.2 = t := hall m (mem_descRange.mp hm).2 q hq
  rw [hpr]
  congr 1
  exact Prod.ext rfl (hq2.trans hq2t)

/-- The fallback pattern
`<premierePrivateProjectMetaData:[^<]+>(.*)</premierePrivateProjectMetaData:.*>`
matched at a property entry: however the greedy pieces backtrack, the match
always spans exactly the entry, leaving the rest of the blob as remainder. -/
theorem matchHere_anyPropPattern_entry {p v t : List Char}
    (hp : SafeName p) (hv_lt : '<' ∉ v) (hv_nl : '\n' ∉ v)
    (ht : t = [] ∨ t.head? = some '\n') :
    ∃ cap, matchHere anyPropPattern (propEntry p v ++ t) = some (cap, t) := by
  have hs0 : propEntry p v ++ t
      = metaMarker ++ (p ++ (['>'] ++ (v ++ (metaCloseMarker ++ (p ++ (['>'] ++ t)))))) := by
    rw [propEntry, openTag, closeTag]
    simp [List.append_assoc]
  have hE : (p ++ (['>'] ++ (v ++ (metaCloseMarker ++ (p ++ (['>'] ++ t))))))
      = (p ++ (['>'] ++ v)) ++ (metaCloseMarker ++ (p ++ (['>'] ++ t))) := by
    simp [List.append_assoc]
  have hmaxE : ((p ++ (['>'] ++ (v ++ (metaCloseMarker ++ (p ++ (['>'] ++ t)))))).takeWhile
      (fun c => !(List.contains ['<'] c))).length
      = p.length + (1 + v.length) := by
    rw [takeWhile_append_all (fun c hc => (ltPred_iff c).mpr
      (fun h => safeName_no_lt hp (h ▸ hc)))]
    rw [takeWhile_append_all (fun c hc => (ltPred_iff c).mpr
      (by rintro rfl; simp at hc))]
    rw [takeWhile_append_all (fun c hc => (ltPred_iff c).mpr
      (fun h => hv_lt (h ▸ hc)))]
    rw [takeWhile_head_stop (Or.inr ⟨'<', by
      rw [head_append_left metaCloseMarker_ne_nil]
      exact metaCloseMarker_head, by simp⟩)]
    simp
    omega
  have hppos : 0 < p.length := List.length_pos.mpr hp.1
  rcases matchHere_tail_close (w := v) hp hv_lt hv_nl ht with ⟨capv, hcapv⟩
  rw [hs0, anyPropPattern, matchHere_lit_consume]
  apply rep_step_full
  · refine ⟨p.length, by simpa using hppos, by rw [hmaxE]; omega, capv, ?_⟩
    rw [List.drop_left, matchHere_lit_consume]
    exact hcapv
  · intro n hhi q hq
    rw [hmaxE] at hhi
    by_cases hgt : ['>'] <+:
        ((p ++ (['>'] ++ (v ++ (metaCloseMarker ++ (p ++ (['>'] ++ t)))))).drop n)
    · have hhd : ((p ++ (['>'] ++ (v ++ (metaCloseMarker ++ (p ++ (['>'] ++ t)))))).drop n).head?
          = some '>' := by
        rw [← prefix_head_eq_of_ne_nil hgt (by simp)]
        rfl
      have hlt : n < p.length + (1 + v.length) := by
        by_contra hge
        have hn : n = p.length + (1 + v.length) := by omega
        rw [hn, show p.length + (1 + v.length) = (p ++ (['>'] ++ v)).length from by
            simp
            omega,
          hE, List.drop_left, head_append_left metaCloseMarker_ne_nil,
          metaCloseMarker_head] at hhd
        exact absurd (Option.some.inj hhd) (by decide)
      rw [matchHere, if_pos (List.isPrefixOf_iff_prefix.mpr hgt),
        show (['>'] : List Char).length = 1 from rfl, List.drop_drop] at hq
      have hsplit : (p ++ (['>'] ++ (v ++ (metaCloseMarker ++ (p ++ (['>'] ++ t)))))).drop (n + 1)
          = (p ++ (['>'] ++ v)).drop (n + 1) ++ (metaCloseMarker ++ (p ++ (['>'] ++ t))) := by
        rw [hE, List.drop_append_of_le_length (by simp; omega)]
      rw [hsplit] at hq
      have hwmem : ∀ c ∈ (p ++ (['>'] ++ v)).drop (n + 1), c ≠ '<' ∧ c ≠ '\n' := by
        intro c hc
        have hcmem := List.mem_of_mem_drop hc
        rcases List.mem_append.mp hcmem with h1 | h1
        · have := isAlphanum_ne (hp.2 c h1)
          exact ⟨this.2.1, this.1⟩
        · rcases List.mem_append.mp h1 with h2 | h2
          · simp only [List.mem_singleton] at h2
            subst h2
            exact ⟨by decide, by decide⟩
          · exact ⟨fun hcc => hv_lt (hcc ▸ h2), fun hcc => hv_nl (hcc ▸ h2)⟩
      rcases matchHere_tail_close (w := (p ++ (['>'] ++ v)).drop (n + 1)) hp
        (fun hc => ((hwmem '<' hc).1 rfl))
        (fun hc => ((hwmem '\n' hc).2 rfl)) ht with ⟨cap2, hcap2⟩
      rw [hcap2] at hq
      rw [← Option.some.inj hq]
    · rw [matchHere_lit_cons_none hgt] at hq
      simp at hq

/-! ### The amended round-trip theorem -/

theorem propEntry_ne_nil (p v : List Char) : propEntry p v ≠ [] := by
  rw [propEntry]
  intro h
  rcases List.append_eq_nil.mp h with ⟨h1, -⟩
  rcases List.append_eq_nil.mp h1 with ⟨h2, -⟩
  exact openTag_ne_nil p h2

/-- Two alphanumeric names followed by `>` can only be prefix-compatible
when equal. -/
theorem alphanum_tag_prefix {a b w : List Char} (ha : ∀ c ∈ a, c.isAlphanum)
    (hb : ∀ c ∈ b, c.isAlphanum) (h : a ++ ['>'] <+: b ++ (['>'] ++ w)) : a = b := by
  induction a generalizing b with
  | nil =>
    cases b with
    | nil => rfl
    | cons y b' =>
      simp only [List.nil_append, List.cons_append] at h
      rw [List.cons_prefix_cons] at h
      exact absurd h.1.symm (isAlphanum_ne (hb y (by simp))).2.2
  | cons x a' ih =>
    cases b with
    | nil =>
      simp only [List.cons_append, List.nil_append] at h
      rw [List.cons_prefix_cons] at h
      exact absurd h.1 (isAlphanum_ne (ha x (by simp))).2.2
    | cons y b' =>
      simp only [List.cons_append] at h
      rw [List.cons_prefix_cons] at h
      rw [h.1, ih (fun c hc => ha c (List.mem_cons_of_mem _ hc))
        (fun c hc => hb c (List.mem_cons_of_mem _ hc)) h.2]

/-- The opening tag of `prop` is a prefix of the entry of `p0` only when the
names agree. -/
theorem openTag_prefix_entry_name_eq {prop p0 v0 post : List Char}
    (hprop : SafeName prop) (hp0 : SafeName p0)
    (h : openTag prop <+: propEntry p0 v0 ++ post) : prop = p0 := by
  have hshape : propEntry p0 v0 ++ post
      = metaMarker ++ (p0 ++ (['>'] ++ (v0 ++ (closeTag p0 ++ post)))) := by
    rw [propEntry, openTag]
    simp [List.append_assoc]
  rw [hshape, openTag, List.append_assoc] at h
  rw [List.prefix_append_right_inj] at h
  exact alphanum_tag_prefix hprop.2 hp0.2 h

/-- C4 (amended): the metadata round trip holds for safe property names
(nonempty, alphanumeric — the source splices the name into the regex
literally) and safe values (no newline, `<`, or backslash), on a blob whose
single property entry sits on its own line and whose remaining text
contains no metadata marker: after `set_meta_data prop value`,
`get_meta_data prop` returns exactly `value`, whether the entry already
belongs to `prop` (in-place substitution) or to another property (fallback
substitution of the first entry). -/
theorem set_get_meta_data_roundtrip
    (pre post prop value p0 v0 : List Char)
    (hprop : SafeName prop) (hp0 : SafeName p0)
    (hvalue : SafeValue value) (hv0 : SafeValue v0)
    (hpre : ∀ i, ¬ OccursAt metaMarker pre i)
    (hpost : ∀ i, ¬ OccursAt metaMarker post i)
    (hline : post = [] ∨ post.head? = some '\n') :
    get_meta_data (set_meta_data (pre ++ propEntry p0 v0 ++ post) prop value) prop
      = some value := by
  have hval_nl : '\n' ∉ value := fun h => (hvalue _ h).1 rfl
  have hval_lt : '<' ∉ value := fun h => (hvalue _ h).2.1 rfl
  have hv0_nl : '\n' ∉ v0 := fun h => (hv0 _ h).1 rfl
  have hv0_lt : '<' ∉ v0 := fun h => (hv0 _ h).2.1 rfl
  have huniq0 : ∀ i, OccursAt metaMarker (pre ++ propEntry p0 v0 ++ post) i →
      i = pre.length := marker_occursAt_unique hp0 hv0_lt hpre hpost
  have huniqF : ∀ i, OccursAt metaMarker (pre ++ propEntry prop value ++ post) i →
      i = pre.length := marker_occursAt_unique hprop hval_lt hpre hpost
  have hdrop0 : (pre ++ propEntry p0 v0 ++ post).drop pre.length
      = propEntry p0 v0 ++ post := by
    rw [List.append_assoc, List.drop_left]
  have hdropF : (pre ++ propEntry prop value ++ post).drop pre.length
      = propEntry prop value ++ post := by
    rw [List.append_assoc, List.drop_left]
  have hno_prop0 : ∀ j, j ≠ pre.length →
      matchHere (propPattern prop) ((pre ++ propEntry p0 v0 ++ post).drop j) = none := by
    intro j hj
    rw [propPattern]
    exact matchHere_lit_cons_none (fun hpfx => hj (huniq0 j (openTag_prefix_marker hpfx)))
  have hpost_none : ∀ i, matchHere (propPattern prop) (post.drop i) = none := by
    intro i
    rw [propPattern]
    exact matchHere_lit_cons_none (fun hpfx => hpost i (openTag_prefix_marker hpfx))
  have hfall : sub1 anyPropPattern (propEntry prop value) (pre ++ propEntry p0 v0 ++ post)
      = pre ++ propEntry prop value ++ post := by
    rcases matchHere_anyPropPattern_entry hp0 hv0_lt hv0_nl hline with ⟨cap, hcap⟩
    exact sub1_single (fun j hj => by
      rw [anyPropPattern]
      exact matchHere_lit_cons_none (fun hpfx =>
        (by omega : j ≠ pre.length) (huniq0 j hpfx))) hcap
  have hset : set_meta_data (pre ++ propEntry p0 v0 ++ post) prop value
      = pre ++ propEntry prop value ++ post := by
    rw [set_meta_data]
    by_cases hpp : prop = p0
    · subst hpp
      have hm0 : matchHere (propPattern prop) (propEntry prop v0 ++ post)
          = some (v0, post) :=
        matchHere_propPattern_entry hprop hv0_nl hv0_lt hline
      have hsub : subAll (propPattern prop) (propEntry prop value)
          (pre ++ propEntry prop v0 ++ post)
          = pre ++ propEntry prop value ++ post :=
        subAll_single (fun j hj => hno_prop0 j (by omega)) hm0
          (propEntry_ne_nil prop v0) hpost_none
      rw [hsub]
      by_cases hvv : value = v0
      · subst hvv
        rw [if_pos rfl]
        exact hfall
      · rw [if_neg (fun heq => hvv (by
          have h1 : propEntry prop value ++ post = propEntry prop v0 ++ post :=
            List.append_cancel_left
              ((List.append_assoc _ _ _).symm.trans
                (heq.trans (List.append_assoc _ _ _)))
          have h2 : propEntry prop value = propEntry prop v0 :=
            List.append_cancel_right h1
          rw [propEntry, propEntry] at h2
          exact List.append_cancel_left
            (List.append_cancel_right h2)))]
    · have hnm : ∀ i, matchHere (propPattern prop)
          ((pre ++ propEntry p0 v0 ++ post).drop i) = none := by
        intro i
        by_cases hi : i = pre.length
        · subst hi
          rw [hdrop0, propPattern]
          exact matchHere_lit_cons_none (fun hpfx =>
            hpp (openTag_prefix_entry_name_eq hprop hp0 hpfx))
        · exact hno_prop0 i hi
      rw [subAll_no_match hnm, if_pos rfl]
      exact hfall
  rw [hset, get_meta_data]
  exact reSearch_eq_some (i := pre.length)
    (fun j hj => by
      rw [propPattern]
      exact matchHere_lit_cons_none (fun hpfx =>
        (by omega : j ≠ pre.length) (huniqF j (openTag_prefix_marker hpfx))))
    (by
      rw [hdropF]
      exact matchHere_propPattern_entry hprop hval_nl hval_lt hline)

theorem set_get_meta_data_roundtrip_witness :
    get_meta_data (set_meta_data
        ("<?xpacket?>\n  ".toList ++ propEntry "Good".toList "True".toList
          ++ "\n</x:xmpmeta>".toList)
        "shot".toList "0010".toList) "shot".toList = some "0010".toList :=
  set_get_meta_data_roundtrip "<?xpacket?>\n  ".toList "\n</x:xmpmeta>".toList
    "shot".toList "0010".toList "Good".toList "True".toList
    (by decide) (by decide) (by decide) (by decide)
    (noOccursAt_of_bounded (by decide) (by decide))
    (noOccursAt_of_bounded (by decide) (by decide))
    (Or.inr (by decide))

end TkPremiere
